import Mathlib

/-!
# My-Shell (`myshell.c`): a shallow embedding and its verified properties

Conventions of the embedding.

* A C string is modelled by the list of the characters that precede its terminating NUL
  (`List Char`); pointers into a string become suffixes of the list.
* Everything the shell does to the outside world goes through a record `OS σ` of operations on an
  abstract world state `σ` (standard output, file system, processes, working directory).  The
  functions of the source are written once, for every such record; `simOS` is one concrete
  instance (files as a map from path to content, programs as functions from `argv` to output).
* The text that the shell's input stream (standard input or the batch file) has still to deliver
  is part of the world (`OS.input`), not a value of the shell: `fgets` and `fgetc` consume it, and
  any other operation, a child process sharing the descriptor for instance, may change it.
* `exit(n)` is modelled by the result `Status.exited n s`; a function that returns normally
  yields `Status.running s`.
-/

namespace MyShell

/-! ## String helpers (lines 10-47) -/

/-- The text written by `print_error` (line 12). -/
def error_message : List Char := "An error has occurred\n".toList

/-- The test `c == ' ' || c == '\t'` that `trim_whitespace` and `contains_whitespace` share. -/
def isBlank (c : Char) : Bool := c == ' ' || c == '\t'

/-- Backward scan of `trim_whitespace` (lines 23-24), `end` being an index into `str`:
`while (end > str && (*end == ' ' || *end == '\t')) end--;`. -/
def trim_end (str : List Char) : Nat → Nat
  | 0 => 0
  | e + 1 => if isBlank (str.getD (e + 1) 'x') then trim_end str e else e + 1

/-- Embedding of `trim_whitespace` (lines 16-27): skip the leading blanks, return at once when
nothing is left, otherwise cut the string right after the position where the backward scan
stops. -/
def trim_whitespace (s : List Char) : List Char :=
  let str := s.dropWhile isBlank
  if str = [] then str
  else str.take (trim_end str (str.length - 1) + 1)

/-- Embedding of `contains_whitespace` (lines 40-47). -/
def contains_whitespace (str : List Char) : Bool :=
  str.any (fun c => c == ' ' || c == '\t')

/-- One call of the C library function `strtok`: skip the leading delimiters; at the end of
the string there is no token; otherwise the token runs up to the next delimiter, which is
overwritten by NUL, and the scan resumes right after it.  The result is the token and the text
from which the next call `strtok(NULL, delim)` continues. -/
def strtok (delim : List Char) (s : List Char) : Option (List Char × List Char) :=
  match s.dropWhile (fun c => delim.elem c) with
  | [] => none
  | c :: cs =>
    some ((c :: cs).takeWhile (fun x => !delim.elem x),
          ((c :: cs).dropWhile (fun x => !delim.elem x)).tail)

/-- The token loops of `process_command` (lines 216-220) and `main` (lines 347-356):
`tok = strtok(s, delim); while (tok != NULL && count < cap) { store tok; tok = strtok(NULL, delim); }`.
The first argument is the number of free slots, `cap - count`. -/
def strtok_loop (delim : List Char) : Nat → List Char → List (List Char)
  | 0, _ => []
  | n + 1, s =>
    match strtok delim s with
    | none => []
    | some (tok, rest) => tok :: strtok_loop delim n rest

/-! ## The redirection parser (lines 177-212 of `process_command`) -/

/-- Outcome of the redirection parsing block: `fail` is the early return after `print_error`,
`ok` carries `redir_type` (0 none, 1 basic, 2 advanced), `cmd_part` and `file_part`
(`none` for the NULL pointer). -/
inductive ParseResult
  | fail (redir_type : Nat)
  | ok (redir_type : Nat) (cmd_part : List Char) (file_part : Option (List Char))
  deriving DecidableEq, Repr

/-- The value of `redir_type` that a parse outcome carries. -/
def ParseResult.redir_type : ParseResult → Nat
  | .fail k => k
  | .ok k _ _ => k

/-- Embedding of lines 177-212: `strstr(cmd_copy, ">")` finds the first `>`; `after` is the text
at `redir_ptr + 1`. -/
def parse_redirection (cmd_copy : List Char) : ParseResult :=
  match cmd_copy.dropWhile (fun c => c != '>') with
  | [] => .ok 0 (trim_whitespace cmd_copy) none
  | _ :: after =>
    let before := cmd_copy.takeWhile (fun c => c != '>')
    let redir_type := if after.head? = some '+' then 2 else 1
    let rest := if redir_type = 2 then after.tail else after
    if rest.elem '>' then .fail redir_type
    else
      let cmd_part := trim_whitespace before
      let file_part := trim_whitespace rest
      if file_part.length = 0 ∨ contains_whitespace file_part = true then .fail redir_type
      else .ok redir_type cmd_part (some file_part)

/-! ## The world: operating-system operations and the shell's functions over them -/

/-- Result of running a piece of the shell: either it returned normally, or it called
`exit(code)`. -/
inductive Status (σ : Type)
  | running (s : σ)
  | exited (code : Nat) (s : σ)
  deriving DecidableEq

/-- The world state a status carries. -/
def Status.state {σ : Type} : Status σ → σ
  | .running s => s
  | .exited _ s => s

/-- The exit code, when the shell has terminated. -/
def Status.code {σ : Type} : Status σ → Option Nat
  | .running _ => none
  | .exited c _ => some c

/-- The system calls the shell relies on, over an abstract world state `σ`.

* `write_stdout b` is `write(STDOUT_FILENO, b, strlen(b))`;
* `access f` is `access(f, F_OK) == 0`;
* `spawn args out` is `fork()` followed, in the child, by the optional
  `open(out, O_WRONLY|O_CREAT|O_TRUNC)`, `dup2` and `execvp(args[0], args)`, and in the parent by
  `waitpid`; it is `none` when `fork` fails;
* `spawn_pipe args` is `pipe()` and `fork()` with the child writing into the pipe; it yields
  the bytes that reach the pipe and the world once the child has been waited for, `none` when
  `pipe` or `fork` fails;
* `open_read f` is the content seen through `open(f, O_RDONLY)`, `none` when it fails;
* `open_trunc f` is `open(f, O_WRONLY|O_CREAT|O_TRUNC, 0644)`, `none` when it fails;
* `write_file f b` is `write` on that descriptor, with the number of bytes written;
* `chdir d` returns whether it succeeded (`d = none` is the NULL pointer);
* `getenv_home` is `getenv("HOME")`, `getcwd` is `getcwd(cwd, 1024)`;
* `input` is the text that `input_stream` has still to deliver and `set_input` replaces it, which
  is how `fgets` and `fgetc` advance the stream. -/
structure OS (σ : Type) where
  write_stdout : List Char → σ → σ
  access : List Char → σ → Bool
  spawn : List (List Char) → Option (List Char) → σ → Option σ
  spawn_pipe : List (List Char) → σ → Option (List Char × σ)
  open_read : List Char → σ → Option (List Char)
  open_trunc : List Char → σ → Option σ
  write_file : List Char → List Char → σ → σ × Nat
  chdir : Option (List Char) → σ → σ × Bool
  getenv_home : σ → Option (List Char)
  getcwd : σ → Option (List Char)
  input : σ → List Char
  set_input : List Char → σ → σ

variable {σ : Type}

/-- Embedding of `print_error` (lines 11-14). -/
def print_error (os : OS σ) (s : σ) : σ :=
  os.write_stdout error_message s

/-- Embedding of `execute_command` (lines 50-63). -/
def execute_command (os : OS σ) (args : List (List Char)) (s : σ) : σ :=
  match os.spawn args none s with
  | none => print_error os s
  | some s1 => s1

/-- Embedding of `basic_redirection` (lines 66-86). -/
def basic_redirection (os : OS σ) (args : List (List Char)) (outfile : List Char) (s : σ) : σ :=
  match os.spawn args (some outfile) s with
  | none => print_error os s
  | some s1 => s1

/-- The read loops of `advanced_redirection` (lines 113-123 and 135-145): each `read` delivers at
most 1024 of the bytes still to come, the loop stops at the first empty read, and the chunks are
appended to the buffer.  The first argument bounds the number of iterations. -/
def drain_loop : Nat → List Char → List Char → List Char
  | 0, _, acc => acc
  | n + 1, pending, acc =>
    let chunk := pending.take 1024
    if chunk.length > 0 then drain_loop n (pending.drop 1024) (acc ++ chunk) else acc

/-- The buffer a read loop ends with; `length + 1` iterations always reach the empty read. -/
def read_all (content : List Char) : List Char :=
  drain_loop (content.length + 1) content []

/-- Embedding of `advanced_redirection` (lines 89-167), allocations succeeding. -/
def advanced_redirection (os : OS σ) (args : List (List Char)) (outfile : List Char)
    (s : σ) : σ :=
  match os.spawn_pipe args s with
  | none => print_error os s
  | some (piped, s1) =>
    let new_output := read_all piped
    let old_content :=
      if os.access outfile s1 then
        match os.open_read outfile s1 with
        | some content => read_all content
        | none => []
      else []
    match os.open_trunc outfile s1 with
    | none => print_error os s1
    | some s2 =>
      let s3 :=
        if new_output.length > 0 then
          let r := os.write_file outfile new_output s2
          if r.2 ≠ new_output.length then print_error os r.1 else r.1
        else s2
      if old_content.length > 0 then (os.write_file outfile old_content s3).1 else s3

/-- Embedding of `process_command` (lines 170-282). -/
def process_command (os : OS σ) (command : List Char) (s : σ) : Status σ :=
  match parse_redirection command with
  | .fail _ => .running (print_error os s)
  | .ok redir_type cmd_part file_part =>
    let args := strtok_loop " \t".toList 127 cmd_part
    match args with
    | [] => .running s
    | arg0 :: _ =>
      if arg0 = "exit".toList then
        if args.length ≠ 1 ∨ redir_type ≠ 0 then .running (print_error os s)
        else .exited 0 s
      else if arg0 = "cd".toList then
        if redir_type ≠ 0 ∨ args.length > 2 then .running (print_error os s)
        else
          let dir := if args.length = 1 then os.getenv_home s else args.get? 1
          let r := os.chdir dir s
          if r.2 then .running r.1 else .running (print_error os r.1)
      else if arg0 = "pwd".toList then
        if redir_type ≠ 0 ∨ args.length ≠ 1 then .running (print_error os s)
        else
          match os.getcwd s with
          | none => .running (print_error os s)
          | some cwd => .running (os.write_stdout "\n".toList (os.write_stdout cwd s))
      else if redir_type = 1 then
        if os.access (file_part.getD []) s then .running (print_error os s)
        else .running (basic_redirection os args (file_part.getD []) s)
      else if redir_type = 2 then
        .running (advanced_redirection os args (file_part.getD []) s)
      else .running (execute_command os args s)

/-! ## The read loop of `main` (lines 303-367) -/

/-- The `for` loop of `main` over the tokens of a line (lines 359-365); `pc` is the function
called on each trimmed, non-empty token (`process_command` in the source). -/
def run_tokens (pc : List Char → σ → Status σ) : List (List Char) → σ → Status σ
  | [], s => .running s
  | tok :: toks, s =>
    let trimmed_token := trim_whitespace tok
    if trimmed_token.length > 0 then
      match pc trimmed_token s with
      | .running s1 => run_tokens pc toks s1
      | .exited code s1 => .exited code s1
    else run_tokens pc toks s

/-- Embedding of lines 338-365 of `main`: split the line on `;` into at most 128 tokens, then run
the `for` loop over them. -/
def process_line (pc : List Char → σ → Status σ) (line : List Char) (s : σ) : Status σ :=
  run_tokens pc (strtok_loop ";".toList 128 line) s

/-- A concrete world: the file system as a map from path to content, the bytes written so far on
standard output, the argument vectors of the processes spawned so far, the working directory,
the value of `HOME` and the input still to be read. -/
structure Sim where
  files : List Char → Option (List Char)
  out : List Char
  spawned : List (List (List Char))
  cwd : List Char
  home : Option (List Char)
  input : List Char

/-- Replace the content of one file. -/
def Sim.put (w : Sim) (f : List Char) (content : List Char) : Sim :=
  { w with files := fun g => if g = f then some content else w.files g }

/-- The operations on the concrete world, every call succeeding.  A program is a function
`prog` from its argument vector to the bytes it writes on its standard output; it touches
nothing else, the input of the shell included. -/
def simOS (prog : List (List Char) → List Char) : OS Sim where
  write_stdout b w := { w with out := w.out ++ b }
  access f w := (w.files f).isSome
  spawn args outfile w :=
    match outfile with
    | none => some { w with out := w.out ++ prog args, spawned := w.spawned ++ [args] }
    | some f => some { (w.put f (prog args)) with spawned := w.spawned ++ [args] }
  spawn_pipe args w := some (prog args, { w with spawned := w.spawned ++ [args] })
  open_read f w := w.files f
  open_trunc f w := some (w.put f [])
  write_file f b w := (w.put f ((w.files f).getD [] ++ b), b.length)
  chdir d w :=
    match d with
    | none => (w, false)
    | some dir => ({ w with cwd := dir }, true)
  getenv_home w := w.home
  getcwd w := some w.cwd
  input w := w.input
  set_input rest w := { w with input := rest }

/-- A program that prints its arguments after the first, separated by spaces, and a newline
(the behaviour of `echo`). -/
def echo_prog (args : List (List Char)) : List Char :=
  " ".toList.intercalate args.tail ++ "\n".toList

/-- An empty world: no file, nothing written, nothing spawned, no input. -/
def w_empty : Sim :=
  { files := fun _ => none, out := [], spawned := [], cwd := "/".toList, home := none,
    input := [] }

/-- The function that records the command strings it is called on, in call order. -/
def record (c : List Char) (log : List (List Char)) : Status (List (List Char)) :=
  .running (log ++ [c])

/-! ## Reference definitions, written from the specification -/

/-- Reference: a string with its leading and trailing spaces/tabs removed and nothing else
changed. -/
def strip_blanks (s : List Char) : List Char :=
  ((s.dropWhile isBlank).reverse.dropWhile isBlank).reverse

/-- Reference: the maximal runs of characters of `s` that are not in `delim`, from left to
right (the pieces between delimiters, the empty ones left out). -/
def runs (delim : List Char) (s : List Char) : List (List Char) :=
  (s.splitOnP (fun c => delim.elem c)).filter (fun t => !t.isEmpty)

/-- Reference: call `pc` on each command of a list, in order, whatever the earlier ones did,
stopping only when one of them terminates the shell. -/
def run_commands (pc : List Char → σ → Status σ) : List (List Char) → σ → Status σ
  | [], s => .running s
  | c :: cs, s =>
    match pc c s with
    | .running s1 => run_commands pc cs s1
    | .exited code s1 => .exited code s1

/-- Reference: the text after the redirection operator, `post` being the text after the first
`>`: what follows the `+` in the merge form `>+`, what follows the `>` otherwise. -/
def after_operator (post : List Char) : List Char :=
  if post.head? = some '+' then post.tail else post

/-- Reference: the kind of redirection the first `>` announces, `post` being the text after
it: 2 (merge-prepend) when `+` comes next, 1 (overwrite) otherwise. -/
def operator_kind (post : List Char) : Nat :=
  if post.head? = some '+' then 2 else 1

/-- Reference: the commands of a line, obtained by splitting it on `;`, trimming each piece and
leaving out the empty ones. -/
def line_commands (line : List Char) : List (List Char) :=
  ((line.splitOnP (fun c => c == ';')).map strip_blanks).filter (fun t => !t.isEmpty)

/-- A line of 257 characters made of 129 one-letter commands separated by `;`. -/
def many_commands : List Char :=
  (List.replicate 128 "a;".toList).flatten ++ "a".toList

/-! ## Lemmas on `trim_whitespace` -/

theorem trim_end_take (str : List Char) (hd : ∀ c, str.head? = some c → isBlank c = false) :
    ∀ e, e < str.length →
      str.take (trim_end str e + 1) = (str.take (e + 1)).rdropWhile isBlank := by
  intro e
  induction e with
  | zero =>
    intro h
    cases str with
    | nil => simp at h
    | cons c cs =>
      have hc : isBlank c = false := hd c rfl
      simp [trim_end, List.rdropWhile_singleton, hc]
  | succ e ih =>
    intro h
    have hx : str[e + 1]? = some str[e + 1] := List.getElem?_eq_getElem h
    have hg : str.getD (e + 1) 'x' = str[e + 1] := by
      rw [List.getD_eq_getElem?_getD, hx]; rfl
    have ht : str.take (e + 1 + 1) = str.take (e + 1) ++ [str[e + 1]] := by
      rw [List.take_succ, hx]; rfl
    rw [ht, List.rdropWhile_concat]
    unfold trim_end
    rw [hg]
    by_cases hb : isBlank str[e + 1] = true
    · rw [if_pos hb, if_pos hb]
      exact ih (by omega)
    · rw [if_neg hb, if_neg hb, ht]

theorem head_dropWhile_isBlank (s : List Char) :
    ∀ c, (s.dropWhile isBlank).head? = some c → isBlank c = false := by
  intro c hc
  have h := List.head?_dropWhile_not isBlank s
  rw [hc] at h
  simpa using h

theorem trim_whitespace_eq_strip (s : List Char) : trim_whitespace s = strip_blanks s := by
  unfold trim_whitespace strip_blanks
  by_cases h : s.dropWhile isBlank = []
  · simp [h]
  · simp only [h, if_false]
    have hlen : 0 < (s.dropWhile isBlank).length := List.length_pos.mpr h
    rw [trim_end_take _ (head_dropWhile_isBlank s) _ (by omega)]
    have : (s.dropWhile isBlank).length - 1 + 1 = (s.dropWhile isBlank).length := by omega
    rw [this, List.take_length]
    rfl

/-! ## Lemmas on `strtok` and the token loops -/

theorem runs_nil (delim : List Char) : runs delim [] = [] := by
  simp [runs]

theorem runs_cons_delim (delim : List Char) (c : Char) (cs : List Char)
    (h : delim.elem c = true) : runs delim (c :: cs) = runs delim cs := by
  unfold runs
  rw [List.splitOnP_cons, if_pos h]
  rfl

theorem runs_dropWhile (delim : List Char) (s : List Char) :
    runs delim (s.dropWhile (fun c => delim.elem c)) = runs delim s := by
  induction s with
  | nil => rfl
  | cons c cs ih =>
    by_cases h : delim.elem c = true
    · rw [List.dropWhile_cons_of_pos (by simpa using h), ih, runs_cons_delim _ _ _ h]
    · rw [List.dropWhile_cons_of_neg (by simpa using h)]

theorem splitOnP_takeWhile (p : Char → Bool) (s : List Char) :
    s.splitOnP p = s.takeWhile (fun x => !p x) ::
      (match s.dropWhile (fun x => !p x) with
       | [] => []
       | _ :: r => r.splitOnP p) := by
  induction s with
  | nil => rfl
  | cons c cs ih =>
    by_cases h : p c = true
    · simp [List.splitOnP_cons, h]
    · have h' : p c = false := by simpa using h
      rw [List.splitOnP_cons, if_neg h, ih]
      simp [List.modifyHead, h']

theorem strtok_none (delim s : List Char) (h : strtok delim s = none) : runs delim s = [] := by
  unfold strtok at h
  split at h
  · rename_i hd
    rw [← runs_dropWhile, hd, runs_nil]
  · simp at h

theorem strtok_some (delim s tok rest : List Char) (h : strtok delim s = some (tok, rest)) :
    runs delim s = tok :: runs delim rest ∧ tok ≠ [] ∧ ∀ x ∈ tok, delim.elem x = false := by
  unfold strtok at h
  split at h
  · simp at h
  · rename_i c cs hd
    have hc : delim.elem c = false := by
      have := List.head?_dropWhile_not (fun c => delim.elem c) s
      rw [hd] at this
      simpa using this
    simp only [Option.some.injEq, Prod.mk.injEq] at h
    obtain ⟨h1, h2⟩ := h
    refine ⟨?_, ?_, ?_⟩
    · rw [← runs_dropWhile, hd]
      unfold runs
      rw [splitOnP_takeWhile, h1]
      have hne : tok ≠ [] := by
        rw [← h1, List.takeWhile_cons_of_pos (by rw [hc]; rfl)]; simp
      rw [List.filter_cons_of_pos (by simpa using hne)]
      congr 1
      rw [← h2]
      cases hdr : List.dropWhile (fun x => !delim.elem x) (c :: cs) with
      | nil => simp
      | cons d r => simp
    · rw [← h1, List.takeWhile_cons_of_pos (by rw [hc]; rfl)]; simp
    · intro x hx
      rw [← h1] at hx
      have := List.mem_takeWhile_imp hx
      simpa using this

theorem strtok_loop_eq_runs (delim : List Char) :
    ∀ (n : Nat) (s : List Char), strtok_loop delim n s = (runs delim s).take n := by
  intro n
  induction n with
  | zero => intro s; simp [strtok_loop]
  | succ n ih =>
    intro s
    unfold strtok_loop
    cases h : strtok delim s with
    | none => simp [strtok_none _ _ h]
    | some p =>
      obtain ⟨tok, rest⟩ := p
      have := (strtok_some _ _ _ _ h).1
      simp [this, ih]

theorem mem_strtok_loop (delim : List Char) :
    ∀ (n : Nat) (s t : List Char), t ∈ strtok_loop delim n s →
      t ≠ [] ∧ ∀ x ∈ t, delim.elem x = false := by
  intro n
  induction n with
  | zero => intro s t ht; simp [strtok_loop] at ht
  | succ n ih =>
    intro s t ht
    unfold strtok_loop at ht
    cases h : strtok delim s with
    | none => rw [h] at ht; simp at ht
    | some p =>
      obtain ⟨tok, rest⟩ := p
      obtain ⟨_, h2, h3⟩ := strtok_some _ _ _ _ h
      rw [h] at ht
      rcases List.mem_cons.mp ht with ht | ht
      · subst ht; exact ⟨h2, h3⟩
      · exact ih rest t ht

/-! ## Lemmas on the redirection parser -/

theorem blank_delims_elem (c : Char) : " \t".toList.elem c = isBlank c := by
  show List.elem c [' ', '\t'] = isBlank c
  cases h1 : c == ' ' <;> cases h2 : c == '\t' <;> simp [isBlank, List.elem, h1, h2]

theorem dropWhile_no_gt (cmd : List Char) (h : '>' ∉ cmd) :
    cmd.dropWhile (fun c => c != '>') = [] := by
  rw [List.dropWhile_eq_nil_iff]
  intro x hx
  have : x ≠ '>' := fun e => h (e ▸ hx)
  simpa using this

theorem takeWhile_no_gt (cmd : List Char) (h : '>' ∉ cmd) :
    cmd.takeWhile (fun c => c != '>') = cmd := by
  have := List.takeWhile_append_dropWhile (fun c => c != '>') cmd
  rw [dropWhile_no_gt cmd h, List.append_nil] at this
  exact this

theorem dropWhile_split (pre post : List Char) (h : '>' ∉ pre) :
    (pre ++ '>' :: post).dropWhile (fun c => c != '>') = '>' :: post := by
  induction pre with
  | nil => simp
  | cons c cs ih =>
    have hc : c ≠ '>' := fun e => h (by simp [e])
    have hcs : '>' ∉ cs := fun e => h (by simp [e])
    rw [List.cons_append, List.dropWhile_cons_of_pos (by simpa using hc)]
    exact ih hcs

theorem takeWhile_split (pre post : List Char) (h : '>' ∉ pre) :
    (pre ++ '>' :: post).takeWhile (fun c => c != '>') = pre := by
  induction pre with
  | nil => simp
  | cons c cs ih =>
    have hc : c ≠ '>' := fun e => h (by simp [e])
    have hcs : '>' ∉ cs := fun e => h (by simp [e])
    rw [List.cons_append, List.takeWhile_cons_of_pos (by simpa using hc), ih hcs]

theorem split_at_first_gt (cmd : List Char) (h : '>' ∈ cmd) :
    ∃ post, cmd = cmd.takeWhile (fun c => c != '>') ++ '>' :: post ∧
      '>' ∉ cmd.takeWhile (fun c => c != '>') := by
  have hsplit := List.takeWhile_append_dropWhile (fun c => c != '>') cmd
  have hnot : '>' ∉ cmd.takeWhile (fun c => c != '>') := by
    intro hm
    have := List.mem_takeWhile_imp hm
    simp at this
  cases hd : cmd.dropWhile (fun c => c != '>') with
  | nil =>
    rw [hd, List.append_nil] at hsplit
    rw [hsplit] at hnot
    exact absurd h hnot
  | cons d post =>
    have hdh := List.head?_dropWhile_not (fun c => c != '>') cmd
    rw [hd] at hdh
    have : d = '>' := by simpa using hdh
    subst this
    refine ⟨post, ?_, hnot⟩
    rw [hd] at hsplit
    exact hsplit.symm

theorem parse_no_gt (cmd : List Char) (h : '>' ∉ cmd) :
    parse_redirection cmd = .ok 0 (trim_whitespace cmd) none := by
  unfold parse_redirection
  rw [dropWhile_no_gt cmd h]

theorem parse_split (pre post : List Char) (h : '>' ∉ pre) :
    parse_redirection (pre ++ '>' :: post) =
      if (after_operator post).elem '>' = true then .fail (operator_kind post)
      else if (trim_whitespace (after_operator post)).length = 0 ∨
          contains_whitespace (trim_whitespace (after_operator post)) = true then
        .fail (operator_kind post)
      else .ok (operator_kind post) (trim_whitespace pre)
        (some (trim_whitespace (after_operator post))) := by
  unfold parse_redirection after_operator operator_kind
  rw [dropWhile_split pre post h]
  simp only [takeWhile_split pre post h]
  by_cases hp : post.head? = some '+'
  · simp only [hp, if_true]
  · simp only [hp, if_false]
    simp

theorem contains_whitespace_eq_false (f : List Char) :
    contains_whitespace f = false ↔ ∀ x ∈ f, isBlank x = false := by
  unfold contains_whitespace isBlank
  simp

theorem parse_ok_inv (cmd : List Char) (k : Nat) (c : List Char) (fp : Option (List Char))
    (h : parse_redirection cmd = .ok k c fp) :
    ('>' ∉ cmd ∧ k = 0 ∧ c = trim_whitespace cmd ∧ fp = none) ∨
    (∃ pre post, cmd = pre ++ '>' :: post ∧ '>' ∉ pre ∧ pre = cmd.takeWhile (fun c => c != '>') ∧
      k = operator_kind post ∧ '>' ∉ after_operator post ∧ c = trim_whitespace pre ∧
      fp = some (trim_whitespace (after_operator post)) ∧
      trim_whitespace (after_operator post) ≠ [] ∧
      ∀ x ∈ trim_whitespace (after_operator post), isBlank x = false) := by
  by_cases hgt : '>' ∈ cmd
  · right
    obtain ⟨post, hsplit, hpre⟩ := split_at_first_gt cmd hgt
    refine ⟨_, post, hsplit, hpre, rfl, ?_⟩
    rw [hsplit, parse_split _ post hpre] at h
    by_cases h1 : (after_operator post).elem '>' = true
    · rw [if_pos h1] at h; cases h
    · rw [if_neg h1] at h
      by_cases h2 : (trim_whitespace (after_operator post)).length = 0 ∨
          contains_whitespace (trim_whitespace (after_operator post)) = true
      · rw [if_pos h2] at h; cases h
      · rw [if_neg h2] at h
        injection h with hk hc hf
        refine ⟨hk.symm, ?_, hc.symm, hf.symm, ?_, ?_⟩
        · intro hm; exact h1 (by simpa using hm)
        · intro he; exact h2 (Or.inl (by rw [he]; rfl))
        · rw [← contains_whitespace_eq_false]
          cases hcw : contains_whitespace (trim_whitespace (after_operator post)) with
          | false => rfl
          | true => exact absurd (Or.inr hcw) h2
  · left
    rw [parse_no_gt cmd hgt] at h
    injection h with hk hc hf
    exact ⟨hgt, hk.symm, hc.symm, hf.symm⟩

theorem operator_kind_ne_zero (post : List Char) : operator_kind post ≠ 0 := by
  unfold operator_kind
  split <;> decide

/-! ## Tokens of a trimmed string -/

theorem splitOnP_append_delim (p : Char → Bool) (x : Char) (hx : p x = true) (l : List Char) :
    (l ++ [x]).splitOnP p = l.splitOnP p ++ [[]] := by
  induction l with
  | nil => simp [List.splitOnP_cons, hx]
  | cons c cs ih =>
    rw [List.cons_append, List.splitOnP_cons, List.splitOnP_cons, ih]
    by_cases h : p c = true
    · simp [h]
    · simp only [h, if_false]
      cases hs : cs.splitOnP p with
      | nil => exact absurd hs (List.splitOnP_ne_nil p cs)
      | cons a as => rfl

theorem runs_append_delim (delim : List Char) (x : Char) (hx : delim.elem x = true)
    (l : List Char) : runs delim (l ++ [x]) = runs delim l := by
  unfold runs
  rw [splitOnP_append_delim _ x hx l, List.filter_append]
  simp

theorem runs_reverse_dropWhile (delim : List Char) (r : List Char) :
    runs delim (r.dropWhile (fun c => delim.elem c)).reverse = runs delim r.reverse := by
  induction r with
  | nil => rfl
  | cons c cs ih =>
    by_cases h : delim.elem c = true
    · rw [List.dropWhile_cons_of_pos (by simpa using h), ih, List.reverse_cons,
        runs_append_delim _ _ h]
    · rw [List.dropWhile_cons_of_neg (by simpa using h)]

theorem isBlank_eq_blank_delims : isBlank = fun c => " \t".toList.elem c := by
  funext c
  exact (blank_delims_elem c).symm

theorem runs_strip (s : List Char) :
    runs " \t".toList (strip_blanks s) = runs " \t".toList s := by
  unfold strip_blanks
  rw [isBlank_eq_blank_delims, runs_reverse_dropWhile, List.reverse_reverse, runs_dropWhile]

theorem runs_eq_nil_iff (delim s : List Char) :
    runs delim s = [] ↔ ∀ x ∈ s, delim.elem x = true := by
  constructor
  · intro h
    cases hs : strtok delim s with
    | none =>
      unfold strtok at hs
      split at hs
      · rename_i hd
        rw [List.dropWhile_eq_nil_iff] at hd
        exact hd
      · simp at hs
    | some p =>
      obtain ⟨tok, rest⟩ := p
      have := (strtok_some _ _ _ _ hs).1
      rw [h] at this
      simp at this
  · intro h
    apply strtok_none
    unfold strtok
    have : s.dropWhile (fun c => delim.elem c) = [] := by
      rw [List.dropWhile_eq_nil_iff]; exact h
    rw [this]

theorem args_eq (cmd_part : List Char) :
    strtok_loop " \t".toList 127 cmd_part = (runs " \t".toList cmd_part).take 127 :=
  strtok_loop_eq_runs _ _ _

theorem args_eq_nil_iff (cmd_part : List Char) :
    strtok_loop " \t".toList 127 cmd_part = [] ↔ ∀ x ∈ cmd_part, isBlank x = true := by
  rw [args_eq, List.take_eq_nil_iff, runs_eq_nil_iff]
  simp only [blank_delims_elem]
  simp

/-! ## The read loops of `advanced_redirection` -/

theorem drain_loop_eq :
    ∀ (n : Nat) (pending acc : List Char), pending.length < n →
      drain_loop n pending acc = acc ++ pending := by
  intro n
  induction n with
  | zero => intro pending acc h; omega
  | succ n ih =>
    intro pending acc h
    unfold drain_loop
    by_cases hc : (pending.take 1024).length > 0
    · simp only [hc, if_true]
      rw [ih _ _ (by
        rw [List.length_drop]
        rw [List.length_take] at hc
        omega)]
      rw [List.append_assoc, List.take_append_drop]
    · simp only [hc, if_false]
      rw [List.length_take] at hc
      have : pending = [] := List.length_eq_zero.mp (by omega)
      simp [this]

theorem read_all_eq (content : List Char) : read_all content = content := by
  unfold read_all
  rw [drain_loop_eq _ _ _ (by omega)]
  rfl

/-! ## Merge-prepend redirection on the concrete world -/

theorem advanced_redirection_files (prog : List (List Char) → List Char)
    (args : List (List Char)) (f : List Char) (w : Sim) :
    (advanced_redirection (simOS prog) args f w).files =
      fun g => if g = f then some (prog args ++ (w.files f).getD []) else w.files g := by
  unfold advanced_redirection
  simp only [simOS, read_all_eq, Sim.put]
  funext g
  cases hold : w.files f with
  | none =>
    by_cases hO : prog args = []
    · by_cases hg : g = f <;> simp [hO, hg]
    · have hpos : 0 < (prog args).length := List.length_pos.mpr hO
      by_cases hg : g = f <;> simp [hO, hg, hpos, print_error]
  | some C =>
    by_cases hO : prog args = []
    · by_cases hC : C = []
      · by_cases hg : g = f <;> simp [hO, hC, hg]
      · have hposC : 0 < C.length := List.length_pos.mpr hC
        by_cases hg : g = f <;> simp [hO, hC, hg, hposC]
    · have hpos : 0 < (prog args).length := List.length_pos.mpr hO
      by_cases hC : C = []
      · by_cases hg : g = f <;> simp [hO, hC, hg, hpos, print_error]
      · have hposC : 0 < C.length := List.length_pos.mpr hC
        by_cases hg : g = f <;> simp [hO, hC, hg, hpos, hposC, print_error]

theorem redir_type_split (pre post : List Char) (h : '>' ∉ pre) :
    (parse_redirection (pre ++ '>' :: post)).redir_type = operator_kind post := by
  rw [parse_split pre post h]
  split_ifs <;> rfl

/-! ## Claims on redirection parsing and tokenisation -/

/-- C2: on the concrete world (files as a map from path to content, the child's captured output
being the byte string `prog args`, every call succeeding), `advanced_redirection` on target `f`
leaves `f` holding the captured output followed by the old content of `f` (nothing when `f` did
not exist) and leaves every other file unchanged; hence two runs in sequence on a file holding
`C` leave `O1 ++ C` and then `O2 ++ O1 ++ C`. -/
theorem C2_merge_prepend (prog1 prog2 : List (List Char) → List Char)
    (args1 args2 : List (List Char)) (f : List Char) (w : Sim) :
    (advanced_redirection (simOS prog1) args1 f w).files f
        = some (prog1 args1 ++ (w.files f).getD []) ∧
    (∀ g, g ≠ f → (advanced_redirection (simOS prog1) args1 f w).files g = w.files g) ∧
    (∀ C, w.files f = some C →
      (advanced_redirection (simOS prog1) args1 f w).files f = some (prog1 args1 ++ C) ∧
      (advanced_redirection (simOS prog2) args2 f
          (advanced_redirection (simOS prog1) args1 f w)).files f
        = some (prog2 args2 ++ prog1 args1 ++ C)) := by
  refine ⟨?_, ?_, ?_⟩
  · rw [advanced_redirection_files]; simp
  · intro g hg
    rw [advanced_redirection_files]; simp [hg]
  · intro C hC
    have h1 : (advanced_redirection (simOS prog1) args1 f w).files f
        = some (prog1 args1 ++ C) := by
      rw [advanced_redirection_files]; simp [hC]
    refine ⟨h1, ?_⟩
    rw [advanced_redirection_files]
    simp [h1]

/-- Witness of C2: `echo new >+ f` twice on a file holding `old`. -/
theorem C2_merge_prepend_witness :
    (advanced_redirection (simOS echo_prog) ["echo".toList, "one".toList] "f".toList
        (w_empty.put "f".toList "old\n".toList)).files "f".toList
      = some ("one\n".toList ++ "old\n".toList) ∧
    (advanced_redirection (simOS echo_prog) ["echo".toList, "two".toList] "f".toList
        (advanced_redirection (simOS echo_prog) ["echo".toList, "one".toList] "f".toList
          (w_empty.put "f".toList "old\n".toList))).files "f".toList
      = some ("two\n".toList ++ "one\n".toList ++ "old\n".toList) :=
  (C2_merge_prepend echo_prog echo_prog ["echo".toList, "one".toList]
    ["echo".toList, "two".toList] "f".toList (w_empty.put "f".toList "old\n".toList)).2.2
    "old\n".toList (by simp [Sim.put])

/-- C3: a fragment with a further `>` after its first redirection operator (after the first `>`
in the overwrite form, after the `+` of `>+` in the merge form) makes `process_command` write
the error message and do nothing else: it returns normally, so the shell goes on, and no other
operation on the world takes place, whatever the first token is. -/
theorem C3_second_redirection_rejected (os : OS σ) (s : σ) (pre post : List Char)
    (hpre : '>' ∉ pre) (hsecond : '>' ∈ after_operator post) :
    process_command os (pre ++ '>' :: post) s = .running (print_error os s) := by
  unfold process_command
  rw [parse_split pre post hpre]
  have : (after_operator post).elem '>' = true := by simpa using hsecond
  rw [if_pos this]

/-- Witness of C3: `exit > a > b` reports the error and does not terminate the shell. -/
theorem C3_second_redirection_rejected_witness :
    process_command (simOS echo_prog) ("exit ".toList ++ '>' :: " a > b".toList) w_empty
      = .running (print_error (simOS echo_prog) w_empty) :=
  C3_second_redirection_rejected (simOS echo_prog) w_empty "exit ".toList " a > b".toList
    (by decide) (by decide)

/-- C5: when the text after the redirection operator, once trimmed, is empty or contains a space
or a tab, `process_command` writes the error message and does nothing else; and whenever the
parser succeeds with a redirection (`redir_type` not 0), the file part handed to
`basic_redirection` or `advanced_redirection` is present, non-empty and free of spaces and
tabs. -/
theorem C5_target_validated (os : OS σ) (s : σ) :
    (∀ pre post : List Char, '>' ∉ pre →
      (strip_blanks (after_operator post) = [] ∨
        ∃ x ∈ strip_blanks (after_operator post), isBlank x = true) →
      process_command os (pre ++ '>' :: post) s = .running (print_error os s)) ∧
    (∀ (cmd : List Char) (k : Nat) (c : List Char) (fp : Option (List Char)),
      parse_redirection cmd = .ok k c fp → k ≠ 0 →
      ∃ f, fp = some f ∧ f ≠ [] ∧ ∀ x ∈ f, isBlank x = false) := by
  constructor
  · intro pre post hpre hbad
    unfold process_command
    rw [parse_split pre post hpre, trim_whitespace_eq_strip (after_operator post)]
    by_cases h1 : (after_operator post).elem '>' = true
    · rw [if_pos h1]
    · rw [if_neg h1]
      have h2 : (strip_blanks (after_operator post)).length = 0 ∨
          contains_whitespace (strip_blanks (after_operator post)) = true := by
        rcases hbad with he | ⟨x, hx, hb⟩
        · left; rw [he]; rfl
        · right
          cases hcw : contains_whitespace (strip_blanks (after_operator post)) with
          | true => rfl
          | false =>
            rw [contains_whitespace_eq_false] at hcw
            rw [hcw x hx] at hb
            cases hb
      rw [if_pos h2]
  · intro cmd k c fp h hk
    rcases parse_ok_inv cmd k c fp h with ⟨_, h0, _, _⟩ | ⟨pre, post, _, _, _, _, _, _, hf, hne, hnb⟩
    · exact absurd h0 hk
    · exact ⟨_, hf, hne, hnb⟩

/-- Witness of C5: `ls > a b` (two words after the operator) is rejected, and the target of
`ls >+ out` is `out`. -/
theorem C5_target_validated_witness :
    process_command (simOS echo_prog) ("ls ".toList ++ '>' :: " a b".toList) w_empty
      = .running (print_error (simOS echo_prog) w_empty) ∧
    ∃ f, some "out".toList = some f ∧ f ≠ [] ∧ ∀ x ∈ f, isBlank x = false :=
  ⟨(C5_target_validated (simOS echo_prog) w_empty).1 "ls ".toList " a b".toList (by decide)
      (Or.inr ⟨' ', by decide, by decide⟩),
   (C5_target_validated (simOS echo_prog) w_empty).2 "ls >+ out".toList 2 "ls".toList
      (some "out".toList) (by decide) (by decide)⟩

/-- C1 (amended): for a fragment that the parser classifies as overwrite (`redir_type` 1, with
its validated target `file`) and whose command part contains a character other than space and
tab, in every world where `file` already exists, `process_command` writes the error message and
does nothing else: no process is spawned and no file is opened. -/
theorem C1_overwrite_existing_target (os : OS σ) (s : σ) (cmd cmd_part file : List Char)
    (hparse : parse_redirection cmd = .ok 1 cmd_part (some file))
    (hcmd : ∃ x ∈ cmd_part, isBlank x = false)
    (hexists : os.access file s = true) :
    process_command os cmd s = .running (print_error os s) := by
  unfold process_command
  rw [hparse]
  cases hargs : strtok_loop " \t".toList 127 cmd_part with
  | nil =>
    rw [args_eq_nil_iff] at hargs
    obtain ⟨x, hx, hb⟩ := hcmd
    rw [hargs x hx] at hb
    cases hb
  | cons arg0 rest =>
    simp only [Option.getD_some, hexists]
    split_ifs <;> first | rfl | simp_all

/-- Witness of C1: `ls > f` when `f` exists. -/
theorem C1_overwrite_existing_target_witness :
    process_command (simOS echo_prog) "ls > f".toList (w_empty.put "f".toList "old".toList)
      = .running (print_error (simOS echo_prog) (w_empty.put "f".toList "old".toList)) :=
  C1_overwrite_existing_target (simOS echo_prog) (w_empty.put "f".toList "old".toList)
    "ls > f".toList "ls".toList "f".toList (by decide) ⟨'l', by decide, by decide⟩ (by decide)

/-- Counterexample to C1 as stated: `> f` is classified as overwrite with the valid target `f`,
the file `f` exists, and yet `process_command` returns through the `arg_count == 0` branch
without writing anything: standard output is still empty, whereas reporting the error would
have put the error message there. -/
theorem C1_counterexample :
    parse_redirection "> f".toList = .ok 1 [] (some "f".toList) ∧
    (simOS echo_prog).access "f".toList (w_empty.put "f".toList "old".toList) = true ∧
    (process_command (simOS echo_prog) "> f".toList
      (w_empty.put "f".toList "old".toList)).state.out = [] ∧
    (print_error (simOS echo_prog) (w_empty.put "f".toList "old".toList)).out
      = "An error has occurred\n".toList := by
  decide

/-- C4: the parser decides on the first `>` only.  `redir_type` is 0 exactly when the string has
no `>`, and then the command part is the whole string trimmed; with the string split at its first
`>`, `redir_type` is 2 exactly when `+` comes right after that `>` and 1 otherwise; and when the
parse succeeds the command part is the text before the first `>` and the file part the text
after the operator, both with their leading and trailing spaces/tabs removed and nothing else
changed. -/
theorem C4_parser_first_redirect (cmd : List Char) :
    ((parse_redirection cmd).redir_type = 0 ↔ '>' ∉ cmd) ∧
    ('>' ∉ cmd → parse_redirection cmd = .ok 0 (strip_blanks cmd) none) ∧
    (∀ pre post : List Char, cmd = pre ++ '>' :: post → '>' ∉ pre →
      ((parse_redirection cmd).redir_type = 2 ↔ post.head? = some '+') ∧
      ((parse_redirection cmd).redir_type = 1 ↔ post.head? ≠ some '+') ∧
      ∀ k c fp, parse_redirection cmd = .ok k c fp →
        c = strip_blanks pre ∧ fp = some (strip_blanks (after_operator post))) := by
  refine ⟨?_, ?_, ?_⟩
  · constructor
    · intro h hgt
      obtain ⟨post, hsplit, hpre⟩ := split_at_first_gt cmd hgt
      have := redir_type_split _ post hpre
      rw [← hsplit, h] at this
      exact operator_kind_ne_zero post this.symm
    · intro h
      rw [parse_no_gt cmd h]; rfl
  · intro h
    rw [parse_no_gt cmd h, trim_whitespace_eq_strip]
  · intro pre post hsplit hpre
    subst hsplit
    refine ⟨?_, ?_, ?_⟩
    · rw [redir_type_split pre post hpre]
      unfold operator_kind
      split_ifs with h <;> simp [h]
    · rw [redir_type_split pre post hpre]
      unfold operator_kind
      split_ifs with h <;> simp [h]
    · intro k c fp h
      rw [parse_split pre post hpre] at h
      split_ifs at h
      injection h with hk hc hf
      rw [← trim_whitespace_eq_strip, ← trim_whitespace_eq_strip]
      exact ⟨hc.symm, hf.symm⟩

/-- Witness of C4: ` ls -l  >+  out ` is a merge-prepend of `ls -l` into `out`. -/
theorem C4_parser_first_redirect_witness :
    "ls -l".toList = strip_blanks " ls -l  ".toList ∧
    some "out".toList = some (strip_blanks (after_operator "+  out ".toList)) :=
  ((C4_parser_first_redirect (" ls -l  ".toList ++ '>' :: "+  out ".toList)).2.2
    " ls -l  ".toList "+  out ".toList rfl (by decide)).2.2 2 "ls -l".toList
    (some "out".toList) (by decide)

theorem mem_strip_blanks (s : List Char) (x : Char) (h : x ∈ strip_blanks s) : x ∈ s := by
  unfold strip_blanks at h
  rw [List.mem_reverse] at h
  have h1 := (List.dropWhile_sublist isBlank).subset h
  rw [List.mem_reverse] at h1
  exact (List.dropWhile_sublist isBlank).subset h1

theorem args_of_runs (cmd_part arg0 : List Char) (tl : List (List Char))
    (h : runs " \t".toList cmd_part = arg0 :: tl) :
    strtok_loop " \t".toList 127 (trim_whitespace cmd_part) = arg0 :: tl.take 126 := by
  rw [args_eq, trim_whitespace_eq_strip, runs_strip, h]
  rfl

theorem process_command_exit_no_gt (os : OS σ) (s : σ) (cmd : List Char)
    (tl : List (List Char)) (hgt : '>' ∉ cmd)
    (hr : runs " \t".toList cmd = "exit".toList :: tl) :
    process_command os cmd s =
      if tl = [] then .exited 0 s else .running (print_error os s) := by
  unfold process_command
  rw [parse_no_gt cmd hgt]
  dsimp only
  rw [args_of_runs _ _ _ hr]
  cases tl with
  | nil => simp
  | cons t ts => simp

theorem process_command_exit_gt (os : OS σ) (s : σ) (cmd : List Char)
    (tl : List (List Char)) (hgt : '>' ∈ cmd)
    (hr : runs " \t".toList (cmd.takeWhile (fun c => c != '>')) = "exit".toList :: tl) :
    process_command os cmd s = .running (print_error os s) := by
  obtain ⟨post, hsplit, hpre⟩ := split_at_first_gt cmd hgt
  generalize cmd.takeWhile (fun c => c != '>') = pre at hsplit hpre hr
  subst hsplit
  unfold process_command
  rw [parse_split pre post hpre]
  split_ifs
  · rfl
  · rfl
  · dsimp only
    rw [args_of_runs _ _ _ hr]
    have := operator_kind_ne_zero post
    simp [this]

/-- C6: the argument vector built from a command part is the first 127 of its maximal runs of
non-space, non-tab characters, in their order; every token is non-empty and free of spaces and
tabs; and the tokens beyond the 127th are dropped without an error: a command without
redirection whose first token is not a built-in is executed with exactly those first 127
tokens, however many runs there are. -/
theorem C6_argument_vector (os : OS σ) (s : σ) (cmd_part : List Char) :
    strtok_loop " \t".toList 127 cmd_part = (runs " \t".toList cmd_part).take 127 ∧
    (∀ t ∈ strtok_loop " \t".toList 127 cmd_part, t ≠ [] ∧ ∀ x ∈ t, isBlank x = false) ∧
    (∀ (cmd arg0 : List Char) (rest : List (List Char)),
      '>' ∉ cmd → cmd_part = strip_blanks cmd →
      (runs " \t".toList cmd_part).take 127 = arg0 :: rest →
      arg0 ≠ "exit".toList → arg0 ≠ "cd".toList → arg0 ≠ "pwd".toList →
      process_command os cmd s
        = .running (execute_command os ((runs " \t".toList cmd_part).take 127) s)) := by
  refine ⟨args_eq cmd_part, ?_, ?_⟩
  · intro t ht
    obtain ⟨h1, h2⟩ := mem_strtok_loop _ _ _ _ ht
    refine ⟨h1, fun x hx => ?_⟩
    rw [← blank_delims_elem]
    exact h2 x hx
  · intro cmd arg0 rest hgt hpart hargs h1 h2 h3
    unfold process_command
    rw [parse_no_gt cmd hgt, trim_whitespace_eq_strip, ← hpart]
    dsimp only
    rw [args_eq, hargs]
    dsimp only
    rw [if_neg h1, if_neg h2, if_neg h3]
    simp

/-- Witness of C6: `ls  -l` is executed with the argument vector `ls`, `-l`. -/
theorem C6_argument_vector_witness :
    process_command (simOS echo_prog) "ls  -l".toList w_empty
      = .running (execute_command (simOS echo_prog)
          ((runs " \t".toList "ls  -l".toList).take 127) w_empty) :=
  (C6_argument_vector (simOS echo_prog) w_empty "ls  -l".toList).2.2
    "ls  -l".toList "ls".toList ["-l".toList] (by decide) (by decide) (by decide)
    (by decide) (by decide) (by decide)

/-- C10 (amended): when the redirection parser succeeds, the argument vector is empty exactly
when the text before the first `>` (the whole fragment when it has no `>`) consists solely of
spaces and tabs. -/
theorem C10_empty_argv (cmd : List Char) (k : Nat) (c : List Char) (fp : Option (List Char))
    (h : parse_redirection cmd = .ok k c fp) :
    strtok_loop " \t".toList 127 c = [] ↔
      ∀ x ∈ cmd.takeWhile (fun c => c != '>'), isBlank x = true := by
  have hc : c = trim_whitespace (cmd.takeWhile (fun c => c != '>')) := by
    rcases parse_ok_inv cmd k c fp h with ⟨hgt, _, hc, _⟩ | ⟨pre, post, _, _, hpre, _, _, hc, _⟩
    · rw [takeWhile_no_gt cmd hgt]; exact hc
    · rw [← hpre]; exact hc
  rw [hc, args_eq, List.take_eq_nil_iff, trim_whitespace_eq_strip, runs_strip, runs_eq_nil_iff]
  simp only [blank_delims_elem]
  simp

/-- Witness of C10: `ls -l > out` has a non-blank command part, hence a non-empty argument
vector. -/
theorem C10_empty_argv_witness :
    strtok_loop " \t".toList 127 "ls -l".toList = [] ↔
      ∀ x ∈ "ls -l > out".toList.takeWhile (fun c => c != '>'), isBlank x = true :=
  C10_empty_argv "ls -l > out".toList 1 "ls -l".toList (some "out".toList) (by decide)

/-- Counterexample to C10 as stated: `>+ log` passes the redirection parser, its argument vector
is empty, and it does not consist solely of spaces and tabs; `process_command` skips it without
writing anything and without spawning a process. -/
theorem C10_counterexample :
    parse_redirection ">+ log".toList = .ok 2 [] (some "log".toList) ∧
    strtok_loop " \t".toList 127 [] = [] ∧
    ¬ (∀ x ∈ ">+ log".toList, isBlank x = true) ∧
    (process_command (simOS echo_prog) ">+ log".toList w_empty).state.out = [] ∧
    (process_command (simOS echo_prog) ">+ log".toList w_empty).state.spawned = [] := by
  decide

/-- C7: for a fragment whose first token (in the text before any `>`) is exactly `exit`, the
shell terminates, with status 0 and the world untouched, if and only if the fragment has exactly
one token and no `>`; in every other form the error message is written and the shell goes on;
and when the bare `exit` terminates the shell, the `for` loop over the fragments of the line
stops there, whatever the later fragments are. -/
theorem C7_exit_builtin (os : OS σ) (s : σ) (cmd : List Char)
    (hfirst : (runs " \t".toList (cmd.takeWhile (fun c => c != '>'))).head?
      = some "exit".toList) :
    (process_command os cmd s = .exited 0 s ↔
      ((runs " \t".toList cmd).length = 1 ∧ '>' ∉ cmd)) ∧
    (¬ ((runs " \t".toList cmd).length = 1 ∧ '>' ∉ cmd) →
      process_command os cmd s = .running (print_error os s)) ∧
    (((runs " \t".toList cmd).length = 1 ∧ '>' ∉ cmd) →
      ∀ toks, run_tokens (process_command os) (cmd :: toks) s = .exited 0 s) := by
  obtain ⟨tl, hr⟩ : ∃ tl, runs " \t".toList (cmd.takeWhile (fun c => c != '>'))
      = "exit".toList :: tl := by
    cases hrs : runs " \t".toList (cmd.takeWhile (fun c => c != '>')) with
    | nil => rw [hrs] at hfirst; cases hfirst
    | cons a tl =>
      rw [hrs] at hfirst
      simp only [List.head?_cons, Option.some.injEq] at hfirst
      exact ⟨tl, by rw [hfirst]⟩
  by_cases hgt : '>' ∈ cmd
  · have herr := process_command_exit_gt os s cmd tl hgt hr
    refine ⟨?_, fun _ => herr, fun h => absurd hgt h.2⟩
    rw [herr]
    constructor
    · intro h; cases h
    · intro h; exact absurd hgt h.2
  · rw [takeWhile_no_gt cmd hgt] at hr
    have hpc := process_command_exit_no_gt os s cmd tl hgt hr
    have hlen : (runs " \t".toList cmd).length = 1 ↔ tl = [] := by
      rw [hr]; cases tl <;> simp
    refine ⟨?_, ?_, ?_⟩
    · rw [hpc]
      by_cases ht : tl = []
      · simp only [ht, if_true, true_iff]
        exact ⟨hlen.mpr ht, hgt⟩
      · simp only [ht, if_false]
        constructor
        · intro h; cases h
        · intro h; exact absurd (hlen.mp h.1) ht
    · intro h
      have ht : tl ≠ [] := fun e => h ⟨hlen.mpr e, hgt⟩
      rw [hpc, if_neg ht]
    · intro h toks
      have ht : tl = [] := hlen.mp h.1
      subst ht
      have hgt' : '>' ∉ trim_whitespace cmd := by
        rw [trim_whitespace_eq_strip]
        exact fun hm => hgt (mem_strip_blanks _ _ hm)
      have hr' : runs " \t".toList (trim_whitespace cmd) = ["exit".toList] := by
        rw [trim_whitespace_eq_strip, runs_strip, hr]
      have hne : (trim_whitespace cmd).length > 0 := by
        apply List.length_pos.mpr
        intro he
        rw [he, runs_nil] at hr'
        cases hr'
      unfold run_tokens
      simp only [hne, if_true]
      rw [process_command_exit_no_gt os s _ [] hgt' hr']
      rfl

/-- Witness of C7: `exit 1` has first token `exit` and is rejected; the shell goes on. -/
theorem C7_exit_builtin_witness :
    process_command (simOS echo_prog) "exit 1".toList w_empty
      = .running (print_error (simOS echo_prog) w_empty) :=
  (C7_exit_builtin (simOS echo_prog) w_empty "exit 1".toList (by decide)).2.1 (by decide)

/-! ## Claims on the loop over the commands of a line -/

theorem run_tokens_eq_run_commands (pc : List Char → σ → Status σ) :
    ∀ (toks : List (List Char)) (s : σ),
      run_tokens pc toks s
        = run_commands pc ((toks.map strip_blanks).filter (fun t => !t.isEmpty)) s := by
  intro toks
  induction toks with
  | nil => intro s; rfl
  | cons t ts ih =>
    intro s
    unfold run_tokens
    rw [trim_whitespace_eq_strip, List.map_cons]
    by_cases h : strip_blanks t = []
    · rw [h]
      simp only [List.length_nil, gt_iff_lt, lt_self_iff_false, if_false]
      rw [ih]
      rfl
    · have hpos : (strip_blanks t).length > 0 := List.length_pos.mpr h
      have hne : (!(strip_blanks t).isEmpty) = true := by
        cases hs : strip_blanks t with
        | nil => exact absurd hs h
        | cons a as => rfl
      simp only [List.filter_cons, hne, hpos, if_true]
      unfold run_commands
      cases pc (strip_blanks t) s with
      | running s1 => exact ih s1
      | exited code s1 => rfl

theorem process_line_eq (pc : List Char → σ → Status σ) (line : List Char) (s : σ) :
    process_line pc line s
      = run_commands pc
          ((((runs ";".toList line).take 128).map strip_blanks).filter (fun t => !t.isEmpty))
          s := by
  unfold process_line
  rw [run_tokens_eq_run_commands, strtok_loop_eq_runs]

theorem strip_blanks_nil : strip_blanks [] = [] := rfl

theorem filter_map_strip (L : List (List Char)) :
    (((L.filter (fun t => !t.isEmpty)).map strip_blanks).filter (fun t => !t.isEmpty))
      = (L.map strip_blanks).filter (fun t => !t.isEmpty) := by
  induction L with
  | nil => rfl
  | cons t ts ih =>
    cases t with
    | nil =>
      rw [List.filter_cons_of_neg (by simp), List.map_cons, strip_blanks_nil,
        List.filter_cons_of_neg (by simp), ih]
    | cons a as =>
      rw [List.filter_cons_of_pos (by simp), List.map_cons, List.map_cons]
      by_cases h : (!(strip_blanks (a :: as)).isEmpty) = true
      · simp only [List.filter_cons, h, if_true, ih]
      · simp only [List.filter_cons, h, if_false, ih]

theorem semicolon_elem : (fun c : Char => ";".toList.elem c) = fun c => c == ';' := by
  funext c
  show List.elem c [';'] = (c == ';')
  cases h : c == ';' <;> simp [List.elem, h]

theorem line_commands_eq (line : List Char) :
    line_commands line
      = ((runs ";".toList line).map strip_blanks).filter (fun t => !t.isEmpty) := by
  unfold line_commands runs
  rw [filter_map_strip, semicolon_elem]

/-- C8 (amended): the commands handed to `pc` (`process_command` in the source) for a line are
the first 128 non-empty `;`-separated pieces of the line, each trimmed, those left empty by the
trimming omitted, in left-to-right order, every one being processed whatever the earlier ones
reported, up to the first one that terminates the shell; when the line has at most 128 non-empty
pieces these are all the commands of the line. -/
theorem C8_line_commands (pc : List Char → σ → Status σ) (line : List Char) (s : σ) :
    process_line pc line s
      = run_commands pc
          ((((runs ";".toList line).take 128).map strip_blanks).filter (fun t => !t.isEmpty))
          s ∧
    ((runs ";".toList line).length ≤ 128 →
      process_line pc line s = run_commands pc (line_commands line) s) := by
  refine ⟨process_line_eq pc line s, fun h => ?_⟩
  rw [process_line_eq, line_commands_eq, List.take_of_length_le h]

/-- Witness of C8: `echo a;echo b` hands `echo a`, then `echo b`. -/
theorem C8_line_commands_witness :
    process_line record "echo a;echo b".toList []
        = run_commands record (line_commands "echo a;echo b".toList) [] ∧
    run_commands record (line_commands "echo a;echo b".toList) []
        = .running ["echo a".toList, "echo b".toList] :=
  ⟨(C8_line_commands record "echo a;echo b".toList []).2 (by decide), by decide⟩

set_option maxRecDepth 100000 in
/-- Counterexample to C8 as stated: a line of 257 characters with 129 commands separated by `;`
is accepted, but only 128 command strings are handed on; the 129th is dropped. -/
theorem C8_counterexample :
    many_commands.length ≤ 512 ∧
    (line_commands many_commands).length = 129 ∧
    (process_line record many_commands []).state.length = 128 := by
  decide

/-! ## Claims on the read loop -/

end MyShell
